import Mathlib

/-!
Verification of the genpdf-rs document composition engine.

Shallow embedding of the element render protocol (src/elements.rs), the math
glyph batcher (src/math.rs), the code-block highlighter fallback
(src/syntax_highlighting.rs, src/elements/codeblock.rs) and the paragraph
word-wrap pipeline.  Physical millimeter quantities and f64 values are
modelled as rationals.  Components of the repository that are not part of the
provided sources (the wrap module, the Area drawing surface, font metrics and
style merging) are modelled from the specification, as noted on each
definition.
-/

namespace GenPdf

/-- Physical size in millimeters, from genpdf Size (width/height in Mm). -/
structure Size where
  width : ℚ
  height : ℚ
deriving DecidableEq, Repr

/-- The vertical-stack combinator on sizes: width is the maximum of the two
widths, height is the sum of the two heights (Size::stack_vertical). -/
def Size.stackVertical (a b : Size) : Size :=
  ⟨max a.width b.width, a.height + b.height⟩

/-- Result of one render call: consumed size plus the resumption flag
(RenderResult in the genpdf crate root). -/
structure RenderResult where
  size : Size
  hasMore : Bool
deriving DecidableEq, Repr

/-- RenderResult::default(): zero size and has_more = false. -/
def rrDefault : RenderResult := ⟨⟨0, 0⟩, false⟩

/-- Text style.  The genpdf Style carries font family, size, color and effect
flags; for the claims under verification only the font size is inspected
directly, so the remaining attributes are abstracted into a plain key. -/
structure Style where
  fontSize : ℚ
  key : ℕ
deriving DecidableEq, Repr

/-- An owned text run paired with a style (style::StyledString).  Text is a
list of characters; the source tracks byte counts, which coincide with
character counts for the purposes of the pruning arithmetic. -/
structure StyledString where
  s : List Char
  style : Style
deriving DecidableEq, Repr

/-- Paragraph alignment (crate::Alignment). -/
inductive Alignment where
  | left
  | center
  | right
  | justified (trimSpaces : Bool)
deriving DecidableEq, Repr

/-- Modelled from the spec: the font cache and style services consumed by
Paragraph::render (string width measurement keyed by style, line height
metrics keyed by style, and Style::and merging).  These live in the style,
fonts and render modules of the repository, which are not part of the
provided sources; the spec describes them as side-effect-free queries. -/
structure TextEnv where
  strW : Style → List Char → ℚ
  lineH : Style → ℚ
  merge : Style → Style → Style

/-- Width of one styled word: str_width of its characters under its style. -/
def wordWidth (env : TextEnv) (w : StyledString) : ℚ :=
  env.strW w.style w.s

/-- Whitespace test used when splitting text into words. -/
def isWs (c : Char) : Bool := c.isWhitespace

/-- True when the list starts with a non-whitespace character. -/
def startsNonWs : List Char → Bool
  | [] => false
  | d :: _ => !(isWs d)

/-- Modelled from the spec: the wrap::Words tokenizer splits a character run
into words at whitespace boundaries (a break falls between a whitespace
character and a following non-whitespace character, so every whitespace run
stays attached to the preceding word).  Concatenating the words restores the
input exactly. -/
def splitWords : List Char → List (List Char)
  | [] => []
  | c :: cs =>
    match splitWords cs with
    | [] => [[c]]
    | w :: ws => if isWs c && startsNonWs w then [c] :: w :: ws else (c :: w) :: ws

/-- Modelled from the spec: wrap::Words over a list of styled runs; each run
is split into words that keep the run's style. -/
def tokenizeWords (text : List StyledString) : List StyledString :=
  text.flatMap (fun ss => (splitWords ss.s).map (fun w => ⟨w, ss.style⟩))

/-- Modelled from the spec: the wrap::Wrapper greedy line breaker.  Words are
pulled into the current line while the cumulative width stays within the
target width; a word that would overflow closes the line, unless the line is
empty, in which case the over-long word is placed alone. -/
def wrapGo (env : TextEnv) (maxW : ℚ) : List StyledString → ℚ → List StyledString →
    List (List StyledString)
  | cur, _, [] => if cur.isEmpty then [] else [cur.reverse]
  | cur, curW, w :: ws =>
    if cur.isEmpty then
      wrapGo env maxW [w] (wordWidth env w) ws
    else if curW + wordWidth env w ≤ maxW then
      wrapGo env maxW (w :: cur) (curW + wordWidth env w) ws
    else
      cur.reverse :: wrapGo env maxW [w] (wordWidth env w) ws

/-- The full wrap of a word queue at the given width. -/
def wrapLines (env : TextEnv) (maxW : ℚ) (ws : List StyledString) :
    List (List StyledString) :=
  wrapGo env maxW [] 0 ws

/-- Width of a line: sum of its word widths (Paragraph::render). -/
def lineWidth (env : TextEnv) (line : List StyledString) : ℚ :=
  (line.map (wordWidth env)).sum

/-- Line height of a line: maximum of the word styles' metrics, folded from
the default metrics as in Paragraph::render. -/
def lineHeight (env : TextEnv) (line : List StyledString) : ℚ :=
  (line.map (fun w => env.lineH w.style)).foldl max 0

/-- Modelled from the spec: Area::text_section succeeds exactly when the
line's height fits into the remaining area height; fitGo returns the prefix
of lines that fit and whether a line failed to fit (which sets has_more). -/
def fitGo (env : TextEnv) : List (List StyledString) → ℚ → List (List StyledString) × Bool
  | [], _ => ([], false)
  | l :: ls, h =>
    if lineHeight env l ≤ h then
      let rest := fitGo env ls (h - lineHeight env l)
      (l :: rest.1, rest.2)
    else ([], true)

/-- Consumed size of the emitted lines, accumulated with the vertical-stack
combinator as in Paragraph::render. -/
def linesSize (env : TextEnv) (ls : List (List StyledString)) : Size :=
  ls.foldl (fun acc l => acc.stackVertical ⟨lineWidth env l, lineHeight env l⟩) ⟨0, 0⟩

/-- Characters of a word queue in order. -/
def wordsChars (ws : List StyledString) : List Char :=
  (ws.map (fun w => w.s)).flatten

/-- The pruning loop at the end of Paragraph::render: removes the first n
rendered characters from the front of the word queue, dropping fully rendered
words and splitting a partially rendered word in place. -/
def pruneWords (n : ℕ) : List StyledString → List StyledString
  | [] => []
  | w :: ws =>
    if n = 0 then w :: ws
    else if w.s.length ≤ n then pruneWords (n - w.s.length) ws
    else ⟨w.s.drop n, w.style⟩ :: ws

/-- The Paragraph element state: pending styled runs, the tokenized word
queue, the style application flag and the alignment (struct Paragraph). -/
structure Paragraph where
  text : List StyledString
  words : List StyledString
  styleApplied : Bool
  alignment : Alignment

/-- Paragraph::apply_style: merges the inherited style under each run's own
style, once. -/
def applyStyle (env : TextEnv) (style : Style) (p : Paragraph) : Paragraph :=
  if p.styleApplied then p
  else { p with
    text := p.text.map (fun s => { s with style := env.merge style s.style }),
    styleApplied := true }

/-- The body of Paragraph::render once the word queue is populated: wrap the
queue at the area width, emit the lines that fit vertically, and prune the
emitted characters from the queue.  Returns the render result, the updated
paragraph and the characters emitted in order.  Horizontal placement (the
alignment offset and justified extra spacing) does not affect emission or
state and is modelled separately by extraWordSpacing. -/
def paragraphRenderBody (env : TextEnv) (p : Paragraph) (areaW areaH : ℚ) :
    RenderResult × Paragraph × List Char :=
  let ls := wrapLines env areaW p.words
  let fitted := (fitGo env ls areaH).1
  let more := (fitGo env ls areaH).2
  let emitted := wordsChars fitted.flatten
  (⟨linesSize env fitted, more⟩, { p with words := pruneWords emitted.length p.words }, emitted)

/-- Paragraph::render, one call: apply the style, tokenize the runs into the
word queue if it is empty (returning immediately when there is no text at
all), then render the queue into the area. -/
def paragraphRender (env : TextEnv) (style : Style) (p : Paragraph) (areaW areaH : ℚ) :
    RenderResult × Paragraph × List Char :=
  let p1 := applyStyle env style p
  if p1.words.isEmpty then
    if p1.text.isEmpty then (rrDefault, p1, [])
    else paragraphRenderBody env { p1 with words := tokenizeWords p1.text, text := [] } areaW areaH
  else paragraphRenderBody env p1 areaW areaH

/-- Renders a paragraph into a sequence of areas (width, height), returning
all emitted characters in order, the has_more flag of the last call (true
when no call was made) and the final paragraph state. -/
def paragraphRenderSeq (env : TextEnv) (style : Style) :
    Paragraph → List (ℚ × ℚ) → List Char × Bool × Paragraph
  | p, [] => ([], true, p)
  | p, [a] =>
    let step := paragraphRender env style p a.1 a.2
    (step.2.2, step.1.hasMore, step.2.1)
  | p, a :: b :: rest =>
    let step := paragraphRender env style p a.1 a.2
    let cont := paragraphRenderSeq env style step.2.1 (b :: rest)
    (step.2.2 ++ cont.1, cont.2.1, cont.2.2)

/-- Rust str::trim_start on a character list (leading whitespace removed). -/
def trimStartChars (s : List Char) : List Char := s.dropWhile isWs

/-- Rust str::trim_end on a character list (trailing whitespace removed). -/
def trimEndChars (s : List Char) : List Char := (s.reverse.dropWhile isWs).reverse

/-- The extra inter-word spacing computation of Paragraph::render
(src/elements.rs lines 382-406): for justified alignment on a line that is
not the wrapper's last line, the line width is first reduced by the first
word's leading-whitespace width unconditionally, then by the last word's
trailing-whitespace width when trim_spaces is set; the leftover area width is
divided by the word count minus one (clamped to at least 1) and by the
style's font size.  All other alignments and the last line yield zero. -/
def extraWordSpacing (env : TextEnv) (alignment : Alignment) (fontSize : ℚ)
    (areaW : ℚ) (line : List StyledString) (nextIsSome : Bool) : ℚ :=
  match alignment, nextIsSome with
  | .justified trimSpaces, true =>
    let w0 := lineWidth env line
    let w1 := match line.head? with
      | some w => w0 - (wordWidth env w - env.strW w.style (trimStartChars w.s))
      | none => w0
    let w2 := if trimSpaces then
        match line.getLast? with
        | some w => w1 - (wordWidth env w - env.strW w.style (trimEndChars w.s))
        | none => w1
      else w1
    ((areaW - w2) / ((max (line.length - 1) 1 : ℕ) : ℚ)) / fontSize
  | _, _ => 0

/-- The spacing computation exactly as the claim words it: leading and
trailing whitespace of the first and last word are excluded from the line
width only when trim_spaces is set.  Stated for comparison against
extraWordSpacing, which is the translation of the source. -/
def extraWordSpacingClaimed (env : TextEnv) (alignment : Alignment) (fontSize : ℚ)
    (areaW : ℚ) (line : List StyledString) (nextIsSome : Bool) : ℚ :=
  match alignment, nextIsSome with
  | .justified trimSpaces, true =>
    let w0 := lineWidth env line
    let w2 := if trimSpaces then
        let w1 := match line.head? with
          | some w => w0 - (wordWidth env w - env.strW w.style (trimStartChars w.s))
          | none => w0
        match line.getLast? with
        | some w => w1 - (wordWidth env w - env.strW w.style (trimEndChars w.s))
        | none => w1
      else w0
    ((areaW - w2) / ((max (line.length - 1) 1 : ℕ) : ℚ)) / fontSize
  | _, _ => 0

/-- A width environment whose string widths are per-character sums, the
common additive shape of font metrics. -/
def sumWidthEnv (cw : Style → Char → ℚ) (lh : Style → ℚ) (mer : Style → Style → Style) :
    TextEnv :=
  ⟨fun st s => (s.map (cw st)).sum, lh, mer⟩

/-! ### Math glyph batcher (src/math.rs) -/

/-- RGB color (style::Color::Rgb). -/
structure ColorRgb where
  r : ℕ
  g : ℕ
  b : ℕ
deriving DecidableEq, Repr

/-- POSITIONING_ACCURACY: maximum difference between two y-offsets to be
inserted into the same batch, in millimeters. -/
def positioningAccuracy : ℚ := 1 / 100

/-- f64::EPSILON as an exact rational. -/
def f64Epsilon : ℚ := 1 / 2 ^ 52

/-- PX_TO_MM: ReX renders at 72 dpi and one inch is 25.4 mm. -/
def pxToMm : ℚ := 25.4 / 72

/-- mm_to_em: converts millimeters to EMs at the given font size. -/
def mmToEm (mm fontSize : ℚ) : ℚ :=
  (mm / pxToMm) * (1 / fontSize)

/-- A batch of glyphs rendered as a single text section (struct TextSection). -/
structure TextSection where
  yOrigin : ℚ
  fontSize : ℚ
  xOffsets : List ℚ
  glyphIds : List ℕ
  color : ColorRgb
  lastX : ℚ
deriving DecidableEq, Repr

/-- TextSection::can_append, translated literally: the y-origins must differ
by strictly less than POSITIONING_ACCURACY, the section's font size minus the
incoming font size must be below f64::EPSILON (the source does not take the
absolute value), and the colors must be equal. -/
def TextSection.canAppend (s : TextSection) (y fs : ℚ) (c : ColorRgb) : Bool :=
  decide (|s.yOrigin - y| < positioningAccuracy ∧
    s.fontSize - fs < f64Epsilon ∧ s.color = c)

/-- A colored filled rectangle (struct Rule). -/
structure Rule where
  x : ℚ
  y : ℚ
  width : ℚ
  height : ℚ
  color : ColorRgb
deriving DecidableEq, Repr

/-- A drawing command (enum MathOp). -/
inductive MathOp where
  | text (s : TextSection)
  | rule (r : Rule)
deriving DecidableEq, Repr

/-- Holds math drawing commands (struct MathBlock). -/
structure MathBlock where
  size : Size
  mathOps : List MathOp
  currentColor : ColorRgb
deriving DecidableEq, Repr

/-- MathBlock::new: empty operations, black current color. -/
def MathBlock.new (size : Size) : MathBlock :=
  ⟨size, [], ⟨0, 0, 0⟩⟩

/-- A glyph placement event as delivered to MathBlock::push_glyph: device
position already converted to millimeters, glyph id, font size, the color
stamped from the current color state, and the advance width. -/
structure Glyph where
  x : ℚ
  y : ℚ
  gid : ℕ
  fontSize : ℚ
  color : ColorRgb
  advance : ℚ
deriving DecidableEq, Repr

/-- Whether an operation is a text section that can absorb the glyph. -/
def matchesGlyph (g : Glyph) : MathOp → Bool
  | .text s => s.canAppend g.y g.fontSize g.color
  | .rule _ => false

/-- MathBlock::find_matching_text_section: index of the first text section
that can absorb the glyph, scanning the operations in order. -/
def findMatchIdx (g : Glyph) : List MathOp → Option ℕ
  | [] => none
  | op :: ops =>
    if matchesGlyph g op then some 0
    else (findMatchIdx g ops).map (fun i => i + 1)

/-- In-place update of the operation at an index. -/
def modifyIdx : List MathOp → ℕ → (MathOp → MathOp) → List MathOp
  | [], _, _ => []
  | op :: ops, 0, f => f op :: ops
  | op :: ops, n + 1, f => op :: modifyIdx ops n f

/-- Appending a glyph to an existing section, as in the Some arm of
MathBlock::push_glyph: the stored offset is the glyph's x position in EMs at
the event's font size minus the section's running last_x, and last_x becomes
that position plus the advance. -/
def appendGlyphOp (g : Glyph) : MathOp → MathOp
  | .text s => .text { s with
      xOffsets := s.xOffsets ++ [mmToEm g.x g.fontSize - s.lastX],
      glyphIds := s.glyphIds ++ [g.gid],
      lastX := mmToEm g.x g.fontSize + g.advance }
  | .rule r => .rule r

/-- The section created by the None arm of MathBlock::push_glyph. -/
def freshSection (g : Glyph) : TextSection :=
  { yOrigin := g.y, fontSize := g.fontSize,
    xOffsets := [mmToEm g.x g.fontSize], glyphIds := [g.gid],
    color := g.color, lastX := mmToEm g.x g.fontSize + g.advance }

/-- MathBlock::push_glyph: append to the first matching section if one
exists, otherwise push a fresh section at the end of the operation list. -/
def MathBlock.pushGlyph (b : MathBlock) (g : Glyph) : MathBlock :=
  match findMatchIdx g b.mathOps with
  | some i => { b with mathOps := modifyIdx b.mathOps i (appendGlyphOp g) }
  | none => { b with mathOps := b.mathOps ++ [.text (freshSection g)] }

/-- Processes a stream of glyph events in order. -/
def processGlyphs (b : MathBlock) (gs : List Glyph) : MathBlock :=
  gs.foldl MathBlock.pushGlyph b

/-- The text sections in an operation list, in order. -/
def opsTextSections (ops : List MathOp) : List TextSection :=
  ops.filterMap (fun op => match op with
    | .text s => some s
    | .rule _ => none)

/-- The text sections of a block in operation order (the glyph batches seen
through MathBlock::ops). -/
def MathBlock.textSections (b : MathBlock) : List TextSection :=
  opsTextSections b.mathOps

/-- The (vertical origin, font size, color) keys of the text sections of an
operation list, in order. -/
def opsSectionKeys (ops : List MathOp) : List (ℚ × ℚ × ColorRgb) :=
  (opsTextSections ops).map (fun s => (s.yOrigin, s.fontSize, s.color))

/-- The (vertical origin, font size, color) keys of the batches in operation
order. -/
def sectionKeys (b : MathBlock) : List (ℚ × ℚ × ColorRgb) :=
  opsSectionKeys b.mathOps

/-- Placeholder operation for out-of-range indexing. -/
def mathOpDefault : MathOp := .rule ⟨0, 0, 0, 0, ⟨0, 0, 0⟩⟩

/-- Reference delta encoding of horizontal offsets for a glyph list: each
offset is the glyph's x position in EMs at its font size minus the running
right edge (previous position plus previous advance), starting from zero so
the first glyph stores its absolute position. -/
def emOffsetsAux (lastX : ℚ) : List Glyph → List ℚ
  | [] => []
  | g :: gs =>
    (mmToEm g.x g.fontSize - lastX) :: emOffsetsAux (mmToEm g.x g.fontSize + g.advance) gs

/-- The running right edge after a glyph list. -/
def lastXAux (acc : ℚ) : List Glyph → ℚ
  | [] => acc
  | g :: gs => lastXAux (mmToEm g.x g.fontSize + g.advance) gs

/-- A text section stores exactly the data of some nonempty subsequence of
the processed glyph events: the glyph ids in emission order, the horizontal
offsets delta-encoded against the previous glyph's right edge (the first
offset being the absolute position in EMs), and the running right edge. -/
def sectionRep (es : List Glyph) (s : TextSection) : Prop :=
  ∃ gs : List Glyph, gs ≠ [] ∧ gs.Sublist es ∧
    s.glyphIds = gs.map (fun g => g.gid) ∧
    s.xOffsets = emOffsetsAux 0 gs ∧
    s.lastX = lastXAux 0 gs

/-! ### Table layout (src/elements.rs TableLayout) -/

/-- Error kinds relevant to the modelled operations (error::ErrorKind). -/
inductive ErrKind where
  | invalidData
  | pageSizeExceeded
deriving DecidableEq, Repr

/-- TableLayout state: fixed column weights, stored rows and the resume row
cursor.  Cell elements are abstract. -/
structure TableLayout (α : Type) where
  columnWeights : List ℕ
  rows : List (List α)
  renderIdx : ℕ

/-- TableLayout::push_row: appends the row when its length equals the number
of column weights, otherwise reports InvalidData and leaves the state
unchanged. -/
def TableLayout.pushRow {α : Type} (t : TableLayout α) (row : List α) :
    TableLayout α × Option ErrKind :=
  if row.length = t.columnWeights.length then
    ({ t with rows := t.rows ++ [row] }, none)
  else
    (t, some .invalidData)

/-- The rows visited by one render pass of TableLayout::render, starting at
an index: rows are rendered in order and the pass stops after the first row
whose cells report has_more (the oracle f abstracts the cells' outcome) or at
the end of the row list. -/
def passGo {α : Type} (f : ℕ → Bool) : List (List α) → ℕ → List (List α)
  | [], _ => []
  | r :: rs, i => r :: (if f i then [] else passGo f rs (i + 1))

/-- The rows rendered by a pass that starts at the stored cursor. -/
def passRows {α : Type} (rows : List (List α)) (startIdx : ℕ) (f : ℕ → Bool) :
    List (List α) :=
  passGo f (rows.drop startIdx) startIdx

/-! ### Framed element (src/elements.rs FramedElement) -/

/-- Observable outcome of one FramedElement::render call: which of the four
borders were drawn, and the returned render result. -/
structure FrameOut where
  top : Bool
  left : Bool
  right : Bool
  bottom : Bool
  result : RenderResult
deriving DecidableEq, Repr

/-- Default frame outcome, used as the out-of-range placeholder. -/
def frameOutDefault : FrameOut := ⟨false, false, false, false, rrDefault⟩

/-- One FramedElement::render call given the inner element's result: the top
border is drawn when this is the first call, left and right are always drawn,
the bottom border is drawn when the inner result has no more content; the
reported height grows by the line thickness for the top border on the first
call and for the bottom border on the final call, and the reported width is
the full area width. -/
def framedStep (t areaW : ℚ) (isFirst : Bool) (inner : RenderResult) : FrameOut :=
  { top := isFirst
    left := true
    right := true
    bottom := !inner.hasMore
    result :=
      ⟨⟨areaW, inner.size.height + (if isFirst then t else 0) +
          (if inner.hasMore then 0 else t)⟩,
        inner.hasMore⟩ }

/-- Folds FramedElement::render over a script of inner results, tracking the
is_first flag, which starts true and is cleared after every call. -/
def framedTraceAux (t areaW : ℚ) (isFirst : Bool) : List RenderResult → List FrameOut
  | [] => []
  | r :: rs => framedStep t areaW isFirst r :: framedTraceAux t areaW false rs

/-- The outcomes of successive FramedElement::render calls. -/
def framedTrace (t areaW : ℚ) (script : List RenderResult) : List FrameOut :=
  framedTraceAux t areaW true script

/-! ### Linear layout (src/elements.rs LinearLayout::render_vertical) -/

/-- An abstract child element for one render pass: maps the offered area
(width, remaining height) to its consumed size and resumption flag. -/
def Child : Type := ℚ → ℚ → Size × Bool

/-- The loop of LinearLayout::render_vertical over the children at and after
the resume cursor: while the remaining height is positive and children are
pending, render the next child into the shrinking area, accumulate its size
with the vertical-stack combinator, and stop immediately when a child reports
has_more.  Returns the accumulated size, the has_more flag and the number of
children completed (the cursor advance). -/
def renderVertGo (w : ℚ) : Size → List Child → ℚ → Size × Bool × ℕ
  | acc, [], _ => (acc, false, 0)
  | acc, c :: cs, h =>
    if h ≤ 0 then (acc, true, 0)
    else
      let r := c w h
      let acc2 := acc.stackVertical r.1
      if r.2 then (acc2, true, 0)
      else
        let rest := renderVertGo w acc2 cs (h - r.1.height)
        (rest.1, rest.2.1, rest.2.2 + 1)

/-- The sequence of child results produced during one render_vertical call:
children are offered the remaining height in order until one reports
has_more (it is included) or the height is exhausted. -/
def vtrace (w : ℚ) : List Child → ℚ → List (Size × Bool)
  | [], _ => []
  | c :: cs, h =>
    if h ≤ 0 then []
    else
      let r := c w h
      if r.2 then [r] else r :: vtrace w cs (h - r.1.height)

/-- LinearLayout state: the boxed children and the resume cursor. -/
structure LinearLayout where
  elements : List Child
  renderIdx : ℕ

/-- LinearLayout::render_vertical: runs the child loop on the children at and
after the resume cursor and advances the cursor by the number of completed
children. -/
def LinearLayout.renderVertical (lay : LinearLayout) (w h : ℚ) :
    RenderResult × LinearLayout :=
  let g := renderVertGo w ⟨0, 0⟩ (lay.elements.drop lay.renderIdx) h
  (⟨g.1, g.2.1⟩, { lay with renderIdx := lay.renderIdx + g.2.2 })

/-! ### Bullet point (src/elements.rs BulletPoint) -/

/-- The fixed layout data of a BulletPoint (indent, bullet space, bullet
text); BulletPoint::new uses indent 10mm, bullet space 2mm and an en dash. -/
structure BulletCfg where
  indent : ℚ
  bulletSpace : ℚ
  bulletText : List Char
deriving DecidableEq, Repr

/-- Observable outcome of one BulletPoint::render call: the returned result,
the horizontal offset applied to the inner element's area, and the x position
at which the bullet string was printed, if it was printed during this call. -/
structure BulletOut where
  result : RenderResult
  innerOffsetX : ℚ
  bulletPrinted : Option ℚ
deriving DecidableEq, Repr

/-- Default bullet outcome, used as the out-of-range placeholder. -/
def bulletOutDefault : BulletOut := ⟨rrDefault, 0, none⟩

/-- One BulletPoint::render call given the inner element's result: the inner
area is offset right by the indent, the indent is added to the reported
width, and the bullet is printed right-aligned against the indent (at indent
minus bullet width minus bullet space) only when it has not been printed
before. -/
def bulletStep (strW : Style → List Char → ℚ) (cfg : BulletCfg) (style : Style)
    (rendered : Bool) (inner : RenderResult) : BulletOut × Bool :=
  let res : RenderResult := ⟨⟨inner.size.width + cfg.indent, inner.size.height⟩, inner.hasMore⟩
  if rendered then
    ({ result := res, innerOffsetX := cfg.indent, bulletPrinted := none }, true)
  else
    ({ result := res, innerOffsetX := cfg.indent,
       bulletPrinted := some (cfg.indent - strW style cfg.bulletText - cfg.bulletSpace) }, true)

/-- Folds BulletPoint::render over a script of inner results, tracking the
bullet_rendered flag, which starts false. -/
def bulletTraceAux (strW : Style → List Char → ℚ) (cfg : BulletCfg) (style : Style)
    (rendered : Bool) : List RenderResult → List BulletOut
  | [] => []
  | r :: rs =>
    let step := bulletStep strW cfg style rendered r
    step.1 :: bulletTraceAux strW cfg style step.2 rs

/-- The outcomes of successive BulletPoint::render calls. -/
def bulletTrace (strW : Style → List Char → ℚ) (cfg : BulletCfg) (style : Style)
    (script : List RenderResult) : List BulletOut :=
  bulletTraceAux strW cfg style false script

/-! ### Code block highlighting (src/syntax_highlighting.rs, src/elements/codeblock.rs) -/

/-- Modelled from the spec: the syntect collaborators consumed by
SyntaxHighlighter::highlight.  find_syntax_by_token and the theme lookup may fail
to find their target; the HighlightLines machinery that styles each line is
abstracted as a total function of the found syntax and theme. -/
structure SyntaxHighlighter where
  findSyntaxByToken : String → Option ℕ
  getTheme : String → Option ℕ
  runHighlight : ℕ → ℕ → String → Style → Bool → List (List (String × Style))

/-- SyntaxHighlighter::highlight: resolves the language token, then the
theme, and highlights each line; a failed lookup short-circuits to None. -/
def SyntaxHighlighter.highlight (sh : SyntaxHighlighter) (code lang theme : String)
    (baseStyle : Style) (onlyRegularFont : Bool) :
    Option (List (List (String × Style))) :=
  match sh.findSyntaxByToken lang with
  | none => none
  | some syn =>
    match sh.getTheme theme with
    | none => none
    | some th => some (sh.runHighlight syn th code baseStyle onlyRegularFont)

/-- CodeBlock state (struct CodeBlock with syntax highlighting enabled). -/
structure CodeBlock where
  code : String
  baseStyle : Style
  onlyRegularFont : Bool
  language : String
  theme : Option String

/-- Removes a trailing carriage return, as Rust's str::lines does per line. -/
def stripTrailingCr (l : String) : String :=
  if l.endsWith "\r" then l.dropRight 1 else l

/-- Rust str::lines: split at newlines, with the final trailing newline not
producing an empty line, and carriage returns stripped. -/
def rustLines (s : String) : List String :=
  let parts := s.splitOn "\n"
  let parts2 := if parts.getLast? = some "" then parts.dropLast else parts
  parts2.map stripTrailingCr

/-- CodeBlock::dummy_highlighting: one span per line, all with the given
style. -/
def dummyHighlighting (cb : CodeBlock) (style : Style) : List (List (String × Style)) :=
  (rustLines cb.code).map (fun l => [(l, style)])

/-- The highlighted_lines computation of CodeBlock::render: when a theme is
configured, ask the highlighter and fall back to dummy_highlighting on a
lookup miss; without a theme, use dummy_highlighting directly.  The fallback
never produces an error. -/
def codeBlockHighlightedLines (sh : SyntaxHighlighter) (cb : CodeBlock) :
    List (List (String × Style)) :=
  match cb.theme with
  | some th =>
    (sh.highlight cb.code cb.language th cb.baseStyle cb.onlyRegularFont).getD
      (dummyHighlighting cb cb.baseStyle)
  | none => dummyHighlighting cb cb.baseStyle

/-! ### Page break (src/elements.rs PageBreak) -/

/-- PageBreak::render: on the first call (cont still false) the element
reports has_more with the deliberately non-zero size (1mm, 0mm) so the render
driver starts a new page; every later call reports completion with zero
size.  The context, area and style arguments are ignored. -/
def pageBreakStep (cont : Bool) (_areaW _areaH _fontSize : ℚ) : RenderResult × Bool :=
  if cont then (rrDefault, cont)
  else (⟨⟨1, 0⟩, true⟩, true)

/-- Folds PageBreak::render over a list of call inputs, starting from a fresh
PageBreak (cont = false). -/
def pageBreakTraceAux (cont : Bool) : List (ℚ × ℚ × ℚ) → List RenderResult
  | [] => []
  | a :: rest =>
    let step := pageBreakStep cont a.1 a.2.1 a.2.2
    step.1 :: pageBreakTraceAux step.2 rest

/-- The results of successive PageBreak::render calls on a fresh element. -/
def pageBreakTrace (inputs : List (ℚ × ℚ × ℚ)) : List RenderResult :=
  pageBreakTraceAux false inputs

/-! ### Concrete instances used to exercise the theorems -/

/-- A concrete style with font size 1. -/
def stOne : Style := ⟨1, 0⟩

/-- Unit character width, independent of the style. -/
def cwOne : Style → Char → ℚ := fun _ _ => 1

/-- Unit line height, independent of the style. -/
def lhOne : Style → ℚ := fun _ => 1

/-- A merge that lets the child style win on every field. -/
def merSnd : Style → Style → Style := fun _ b => b

/-- Additive width environment with unit character widths. -/
def envOne : TextEnv := sumWidthEnv cwOne lhOne merSnd

/-- A two-word line whose first word carries leading whitespace. -/
def lineSp : List StyledString := [⟨[' ', 'a'], stOne⟩, ⟨['b'], stOne⟩]

/-- A one-run paragraph text. -/
def textsOne : List StyledString := [⟨['a', 'b', ' ', 'c', 'd'], stOne⟩]

/-! ## Theorems -/

theorem getD_map_const {α β : Type} (l : List α) (k : ℕ) (d : β) :
    (l.map (fun _ => d)).getD k d = d := by
  induction l generalizing k with
  | nil => simp
  | cons a rest ih => cases k <;> simp [ih]

theorem getD_map_of_lt {α β : Type} (f : α → β) (l : List α) (k : ℕ)
    (hk : k < l.length) (d : β) (d2 : α) :
    (l.map f).getD k d = f (l.getD k d2) := by
  induction l generalizing k with
  | nil => simp at hk
  | cons a rest ih =>
    cases k with
    | zero => simp
    | succ k => simpa using ih k (by simpa using hk)

theorem pageBreakTraceAux_true (l : List (ℚ × ℚ × ℚ)) :
    pageBreakTraceAux true l = l.map (fun _ => rrDefault) := by
  induction l with
  | nil => rfl
  | cons a rest ih => simp [pageBreakTraceAux, pageBreakStep, ih]

/-- C10: The first render call on a fresh PageBreak returns has_more = true
with the non-zero consumed size (1mm, 0mm); every subsequent call returns
has_more = false with zero size, regardless of the context, area or style
inputs, so a PageBreak requests exactly one new page and never more. -/
theorem c10_page_break (inputs : List (ℚ × ℚ × ℚ)) (k : ℕ) (hk : k < inputs.length) :
    (pageBreakTrace inputs).getD k rrDefault =
      if k = 0 then ⟨⟨1, 0⟩, true⟩ else ⟨⟨0, 0⟩, false⟩ := by
  cases inputs with
  | nil => simp at hk
  | cons a rest =>
    cases k with
    | zero => simp [pageBreakTrace, pageBreakTraceAux, pageBreakStep]
    | succ k =>
      simp [pageBreakTrace, pageBreakTraceAux, pageBreakStep, pageBreakTraceAux_true,
        getD_map_const, rrDefault]

/-- Evaluation of the C10 theorem on a concrete two-call trace. -/
theorem c10_witness :
    (pageBreakTrace [(10, 20, 12), (10, 20, 12)]).getD 1 rrDefault = ⟨⟨0, 0⟩, false⟩ := by
  have h := c10_page_break [(10, 20, 12), (10, 20, 12)] 1 (by decide)
  simpa using h

theorem framedTraceAux_false (t w : ℚ) (rs : List RenderResult) :
    framedTraceAux t w false rs = rs.map (framedStep t w false) := by
  induction rs with
  | nil => rfl
  | cons r rest ih => simp [framedTraceAux, ih]

theorem framedTrace_getD (t w : ℚ) (script : List RenderResult) (k : ℕ)
    (hk : k < script.length) :
    (framedTrace t w script).getD k frameOutDefault
      = framedStep t w (decide (k = 0)) (script.getD k rrDefault) := by
  cases script with
  | nil => simp at hk
  | cons r rest =>
    cases k with
    | zero => simp [framedTrace, framedTraceAux]
    | succ k =>
      have hk2 : k < rest.length := by simpa using hk
      have hmap := getD_map_of_lt (framedStep t w false) rest k hk2 frameOutDefault rrDefault
      simp only [framedTrace, framedTraceAux, List.getD_cons_succ]
      rw [framedTraceAux_false, hmap]
      simp

/-- C6: For every FramedElement render call, the top border is drawn exactly
on the first call, the bottom border exactly when the inner result has
has_more = false, the left and right borders on every call; the reported
height is the inner height enlarged by one line thickness for the top border
on the first call and by one line thickness for the bottom border on the
final call, and the reported width is the area width. -/
theorem c6_framed_element (t w : ℚ) (script : List RenderResult) (k : ℕ)
    (hk : k < script.length) :
    ((framedTrace t w script).getD k frameOutDefault).top = decide (k = 0) ∧
    ((framedTrace t w script).getD k frameOutDefault).left = true ∧
    ((framedTrace t w script).getD k frameOutDefault).right = true ∧
    ((framedTrace t w script).getD k frameOutDefault).bottom
      = !(script.getD k rrDefault).hasMore ∧
    ((framedTrace t w script).getD k frameOutDefault).result.size.height
      = (script.getD k rrDefault).size.height + (if k = 0 then t else 0) +
        (if (script.getD k rrDefault).hasMore then 0 else t) ∧
    ((framedTrace t w script).getD k frameOutDefault).result.size.width = w ∧
    ((framedTrace t w script).getD k frameOutDefault).result.hasMore
      = (script.getD k rrDefault).hasMore := by
  rw [framedTrace_getD t w script k hk]
  by_cases hk0 : k = 0 <;> simp [framedStep, hk0]

/-- Evaluation of the C6 theorem on an element spanning three areas: the
middle page draws neither top nor bottom border. -/
theorem c6_witness :
    ((framedTrace 1 50 [⟨⟨40, 10⟩, true⟩, ⟨⟨40, 10⟩, true⟩, ⟨⟨40, 8⟩, false⟩]).getD 1
        frameOutDefault).top = decide ((1 : ℕ) = 0) ∧
    ((framedTrace 1 50 [⟨⟨40, 10⟩, true⟩, ⟨⟨40, 10⟩, true⟩, ⟨⟨40, 8⟩, false⟩]).getD 1
        frameOutDefault).bottom
      = !(([⟨⟨40, 10⟩, true⟩, ⟨⟨40, 10⟩, true⟩,
            (⟨⟨40, 8⟩, false⟩ : RenderResult)].getD 1 rrDefault)).hasMore := by
  have h := c6_framed_element 1 50
    [⟨⟨40, 10⟩, true⟩, ⟨⟨40, 10⟩, true⟩, ⟨⟨40, 8⟩, false⟩] 1 (by decide)
  exact ⟨h.1, h.2.2.2.1⟩

theorem bulletTraceAux_true (strW : Style → List Char → ℚ) (cfg : BulletCfg)
    (style : Style) (rs : List RenderResult) :
    bulletTraceAux strW cfg style true rs
      = rs.map (fun r => (bulletStep strW cfg style true r).1) := by
  induction rs with
  | nil => rfl
  | cons r rest ih => simp [bulletTraceAux, bulletStep, ih]

theorem bulletTrace_getD (strW : Style → List Char → ℚ) (cfg : BulletCfg) (style : Style)
    (script : List RenderResult) (k : ℕ) (hk : k < script.length) :
    (bulletTrace strW cfg style script).getD k bulletOutDefault
      = (bulletStep strW cfg style (decide (k ≠ 0)) (script.getD k rrDefault)).1 := by
  cases script with
  | nil => simp at hk
  | cons r rest =>
    cases k with
    | zero => simp [bulletTrace, bulletTraceAux, bulletStep]
    | succ k =>
      have hk2 : k < rest.length := by simpa using hk
      have hstep : (bulletStep strW cfg style false r).2 = true := by
        simp [bulletStep]
      have hmap := getD_map_of_lt (fun r => (bulletStep strW cfg style true r).1) rest k hk2
        bulletOutDefault rrDefault
      simp only [bulletTrace, bulletTraceAux, hstep, List.getD_cons_succ]
      rw [bulletTraceAux_true, hmap]
      simp

/-- C8: A BulletPoint prints its bullet string only during the first render
call, at the position indent minus bullet width minus bullet space; later
calls never print the bullet again, every call offsets the inner area right
by the indent, and the indent is added to the reported width. -/
theorem c8_bullet_point (strW : Style → List Char → ℚ) (cfg : BulletCfg) (style : Style)
    (script : List RenderResult) (k : ℕ) (hk : k < script.length) :
    ((bulletTrace strW cfg style script).getD k bulletOutDefault).bulletPrinted
      = (if k = 0 then some (cfg.indent - strW style cfg.bulletText - cfg.bulletSpace)
         else none) ∧
    ((bulletTrace strW cfg style script).getD k bulletOutDefault).innerOffsetX
      = cfg.indent ∧
    ((bulletTrace strW cfg style script).getD k bulletOutDefault).result.size.width
      = (script.getD k rrDefault).size.width + cfg.indent ∧
    ((bulletTrace strW cfg style script).getD k bulletOutDefault).result.size.height
      = (script.getD k rrDefault).size.height ∧
    ((bulletTrace strW cfg style script).getD k bulletOutDefault).result.hasMore
      = (script.getD k rrDefault).hasMore := by
  rw [bulletTrace_getD strW cfg style script k hk]
  by_cases hk0 : k = 0 <;> simp [bulletStep, hk0]

/-- Evaluation of the C8 theorem: on the second call the bullet is not
reprinted. -/
theorem c8_witness :
    ((bulletTrace envOne.strW ⟨10, 2, ['a']⟩ stOne [⟨⟨5, 5⟩, true⟩, ⟨⟨5, 5⟩, false⟩]).getD 1
        bulletOutDefault).bulletPrinted = none := by
  have h := c8_bullet_point envOne.strW ⟨10, 2, ['a']⟩ stOne
    [⟨⟨5, 5⟩, true⟩, ⟨⟨5, 5⟩, false⟩] 1 (by decide)
  simpa using h.1

theorem passGo_mem {α : Type} (f : ℕ → Bool) :
    ∀ (l : List (List α)) (i : ℕ) (x : List α), x ∈ passGo f l i → x ∈ l := by
  intro l
  induction l with
  | nil => intro i x hx; simp [passGo] at hx
  | cons r rs ih =>
    intro i x hx
    rcases List.mem_cons.mp hx with h | h
    · exact h ▸ List.mem_cons_self r rs
    · by_cases hf : f i
      · simp [passGo, hf] at hx
        exact hx ▸ List.mem_cons_self r rs
      · simp only [passGo, if_neg hf] at hx
        rcases List.mem_cons.mp hx with h2 | h2
        · exact h2 ▸ List.mem_cons_self r rs
        · exact List.mem_cons_of_mem r (ih (i + 1) x h2)

/-- C2: TableLayout::push_row reports InvalidData and leaves the stored rows
unchanged whenever the pushed row's element count differs from the number of
column weights; when the counts match, the row is appended and no error is
reported.  Every row visited by a render pass is a stored row, so a rejected
row is never rendered in any subsequent pass. -/
theorem c2_table_push_row {α : Type} (t : TableLayout α) (row : List α) :
    (row.length ≠ t.columnWeights.length →
      t.pushRow row = (t, some ErrKind.invalidData) ∧
      (row ∉ t.rows →
        ∀ (i : ℕ) (f : ℕ → Bool), row ∉ passRows (t.pushRow row).1.rows i f)) ∧
    (row.length = t.columnWeights.length →
      t.pushRow row = ({ t with rows := t.rows ++ [row] }, none)) ∧
    (∀ (i : ℕ) (f : ℕ → Bool) (r : List α), r ∈ passRows t.rows i f → r ∈ t.rows) := by
  refine ⟨?_, ?_, ?_⟩
  · intro hne
    have hpush : t.pushRow row = (t, some ErrKind.invalidData) := by
      simp [TableLayout.pushRow, hne]
    refine ⟨hpush, ?_⟩
    intro hnot i f hmem
    rw [hpush] at hmem
    exact hnot (List.drop_subset i t.rows (passGo_mem f (t.rows.drop i) i row hmem))
  · intro heq
    simp [TableLayout.pushRow, heq]
  · intro i f r hmem
    exact List.drop_subset i t.rows (passGo_mem f (t.rows.drop i) i r hmem)

/-- Evaluation of the C2 theorem: a one-element row pushed into a two-column
table is rejected with InvalidData and the table keeps its rows. -/
theorem c2_witness :
    (TableLayout.pushRow (⟨[1, 1], [[7, 7]], 0⟩ : TableLayout ℕ) [5])
      = ((⟨[1, 1], [[7, 7]], 0⟩ : TableLayout ℕ), some ErrKind.invalidData) := by
  exact ((c2_table_push_row (⟨[1, 1], [[7, 7]], 0⟩ : TableLayout ℕ) [5]).1 (by decide)).1

theorem renderVertGo_fst (w : ℚ) (cs : List Child) :
    ∀ (acc : Size) (h : ℚ),
    (renderVertGo w acc cs h).1
      = (vtrace w cs h).foldl (fun a r => a.stackVertical r.1) acc := by
  induction cs with
  | nil => intro acc h; simp [renderVertGo, vtrace]
  | cons c rest ih =>
    intro acc h
    by_cases hh : h ≤ 0
    · simp [renderVertGo, vtrace, hh]
    · by_cases hr : (c w h).2 = true
      · simp [renderVertGo, vtrace, hh, hr]
      · simp [renderVertGo, vtrace, hh, hr, ih]

theorem foldl_stack_height (l : List (Size × Bool)) :
    ∀ a : Size, (l.foldl (fun a r => a.stackVertical r.1) a).height
      = a.height + (l.map (fun r => r.1.height)).sum := by
  induction l with
  | nil => intro a; simp
  | cons r rest ih =>
    intro a
    rw [List.foldl_cons, ih]
    simp [Size.stackVertical]
    ring

theorem foldl_stack_width (l : List (Size × Bool)) :
    ∀ a : Size, (l.foldl (fun a r => a.stackVertical r.1) a).width
      = (l.map (fun r => r.1.width)).foldl max a.width := by
  induction l with
  | nil => intro a; simp
  | cons r rest ih =>
    intro a
    rw [List.foldl_cons, ih]
    simp [Size.stackVertical]

theorem renderVertGo_count (w : ℚ) (cs : List Child) :
    ∀ (acc : Size) (h : ℚ),
    (renderVertGo w acc cs h).2.2 = ((vtrace w cs h).filter (fun r => !r.2)).length := by
  induction cs with
  | nil => intro acc h; simp [renderVertGo, vtrace]
  | cons c rest ih =>
    intro acc h
    by_cases hh : h ≤ 0
    · simp [renderVertGo, vtrace, hh]
    · by_cases hr : (c w h).2 = true
      · simp [renderVertGo, vtrace, hh, hr]
      · simp [renderVertGo, vtrace, hh, hr, ih]

theorem renderVertGo_flag (w : ℚ) (cs : List Child) :
    ∀ (acc : Size) (h : ℚ),
    ((renderVertGo w acc cs h).2.1 = false ↔ (renderVertGo w acc cs h).2.2 = cs.length) := by
  induction cs with
  | nil => intro acc h; simp [renderVertGo]
  | cons c rest ih =>
    intro acc h
    by_cases hh : h ≤ 0
    · simp [renderVertGo, hh]
    · by_cases hr : (c w h).2 = true
      · simp [renderVertGo, hh, hr]
      · have hih := ih (acc.stackVertical (c w h).1) (h - (c w h).1.height)
        simp [renderVertGo, hh, hr]
        rw [hih]

theorem renderVertGo_stop (w : ℚ) (cs : List Child) :
    ∀ (acc : Size) (h : ℚ), (renderVertGo w acc cs h).2.1 = true →
      (renderVertGo w acc cs h).2.2 < cs.length ∧
      (((vtrace w cs h).getLast?).map (fun r => r.2) = some true ∨
        h - ((vtrace w cs h).map (fun r => r.1.height)).sum ≤ 0) := by
  induction cs with
  | nil =>
    intro acc h hflag
    simp [renderVertGo] at hflag
  | cons c rest ih =>
    intro acc h hflag
    by_cases hh : h ≤ 0
    · constructor
      · simp [renderVertGo, hh]
      · right
        simp [vtrace, hh]
    · by_cases hr : (c w h).2 = true
      · constructor
        · simp [renderVertGo, hh, hr]
        · left
          simp [vtrace, hh, hr]
      · have hflag2 : (renderVertGo w (acc.stackVertical (c w h).1) rest
            (h - (c w h).1.height)).2.1 = true := by
          simpa [renderVertGo, hh, hr] using hflag
        obtain ⟨h1, h2⟩ := ih (acc.stackVertical (c w h).1) (h - (c w h).1.height) hflag2
        have htr : vtrace w (c :: rest) h
            = (c w h) :: vtrace w rest (h - (c w h).1.height) := by
          simp [vtrace, hh, hr]
        constructor
        · simp [renderVertGo, hh, hr]
          omega
        · rcases h2 with h2 | h2
          · left
            rw [htr]
            cases htail : vtrace w rest (h - (c w h).1.height) with
            | nil => rw [htail] at h2; simp at h2
            | cons a l =>
              rw [htail] at h2
              simpa using h2
          · right
            rw [htr]
            simp only [List.map_cons, List.sum_cons]
            linarith

/-- C7: LinearLayout::render_vertical renders the children at and after the
stored resume cursor in order, stops with has_more = true as soon as a child
reports has_more (leaving the cursor on that child) or the remaining height
is exhausted with children still pending, returns has_more = false exactly
when every pending child completed, and reports the vertical stack of the
invoked children's sizes: height is their sum and width their maximum. -/
theorem c7_linear_layout (lay : LinearLayout) (w h : ℚ) :
    ((lay.renderVertical w h).1.hasMore = false ↔
      (lay.renderVertical w h).2.renderIdx
        = lay.renderIdx + (lay.elements.drop lay.renderIdx).length) ∧
    (lay.renderVertical w h).2.renderIdx
      = lay.renderIdx +
        ((vtrace w (lay.elements.drop lay.renderIdx) h).filter (fun r => !r.2)).length ∧
    (lay.renderVertical w h).1.size.height
      = ((vtrace w (lay.elements.drop lay.renderIdx) h).map (fun r => r.1.height)).sum ∧
    (lay.renderVertical w h).1.size.width
      = ((vtrace w (lay.elements.drop lay.renderIdx) h).map (fun r => r.1.width)).foldl max 0 ∧
    ((lay.renderVertical w h).1.hasMore = true →
      ((vtrace w (lay.elements.drop lay.renderIdx) h).filter (fun r => !r.2)).length
        < (lay.elements.drop lay.renderIdx).length ∧
      (((vtrace w (lay.elements.drop lay.renderIdx) h).getLast?).map (fun r => r.2)
          = some true ∨
        h - ((vtrace w (lay.elements.drop lay.renderIdx) h).map (fun r => r.1.height)).sum
          ≤ 0)) := by
  simp only [LinearLayout.renderVertical]
  refine ⟨?_, ?_, ?_, ?_, ?_⟩
  · rw [renderVertGo_flag w (lay.elements.drop lay.renderIdx) ⟨0, 0⟩ h]
    omega
  · rw [renderVertGo_count w (lay.elements.drop lay.renderIdx) ⟨0, 0⟩ h]
  · rw [renderVertGo_fst w (lay.elements.drop lay.renderIdx) ⟨0, 0⟩ h, foldl_stack_height]
    simp
  · rw [renderVertGo_fst w (lay.elements.drop lay.renderIdx) ⟨0, 0⟩ h, foldl_stack_width]
  · intro hm
    obtain ⟨h1, h2⟩ := renderVertGo_stop w (lay.elements.drop lay.renderIdx) ⟨0, 0⟩ h hm
    rw [renderVertGo_count w (lay.elements.drop lay.renderIdx) ⟨0, 0⟩ h] at h1
    exact ⟨h1, h2⟩

/-- Evaluation of the C7 theorem: two children that both fit consume the sum
of their heights. -/
theorem c7_witness :
    ((LinearLayout.mk [fun _ _ => (⟨5, 3⟩, false), fun _ _ => (⟨2, 4⟩, false)]
        0).renderVertical 10 10).1.size.height
      = ((vtrace 10 ([fun _ _ => (⟨5, 3⟩, false), fun _ _ => (⟨2, 4⟩, false)] : List Child)
          10).map (fun r => r.1.height)).sum := by
  exact (c7_linear_layout
    (LinearLayout.mk [fun _ _ => (⟨5, 3⟩, false), fun _ _ => (⟨2, 4⟩, false)] 0) 10 10).2.2.1

theorem findMatchIdx_none_iff (g : Glyph) (ops : List MathOp) :
    findMatchIdx g ops = none ↔ ∀ op ∈ ops, matchesGlyph g op = false := by
  induction ops with
  | nil => simp [findMatchIdx]
  | cons op rest ih =>
    by_cases hm : matchesGlyph g op = true
    · simp [findMatchIdx, hm]
    · simp [findMatchIdx, hm, Option.map_eq_none', ih]

theorem findMatchIdx_some_spec (g : Glyph) :
    ∀ (ops : List MathOp) (i : ℕ), findMatchIdx g ops = some i →
      i < ops.length ∧ matchesGlyph g (ops.getD i mathOpDefault) = true ∧
      ∀ j, j < i → matchesGlyph g (ops.getD j mathOpDefault) = false := by
  intro ops
  induction ops with
  | nil => intro i hi; simp [findMatchIdx] at hi
  | cons op rest ih =>
    intro i hi
    by_cases hm : matchesGlyph g op = true
    · simp [findMatchIdx, hm] at hi
      subst hi
      refine ⟨by simp, by simpa using hm, ?_⟩
      intro j hj
      omega
    · simp [findMatchIdx, hm] at hi
      obtain ⟨i0, h0, hi0⟩ := hi
      subst hi0
      obtain ⟨l1, l2, l3⟩ := ih i0 h0
      refine ⟨by simpa using Nat.succ_lt_succ l1, by simpa using l2, ?_⟩
      intro j hj
      cases j with
      | zero => simpa using hm
      | succ j => simpa using l3 j (by omega)

theorem opsTextSections_append (l1 l2 : List MathOp) :
    opsTextSections (l1 ++ l2) = opsTextSections l1 ++ opsTextSections l2 := by
  simp [opsTextSections]

theorem opsTextSections_nil : opsTextSections [] = [] := rfl

theorem opsTextSections_cons_text (s : TextSection) (ops : List MathOp) :
    opsTextSections (.text s :: ops) = s :: opsTextSections ops := rfl

theorem mem_opsTextSections (ops : List MathOp) (s : TextSection) :
    s ∈ opsTextSections ops ↔ MathOp.text s ∈ ops := by
  simp only [opsTextSections, List.mem_filterMap]
  constructor
  · rintro ⟨op, hop, hf⟩
    cases op with
    | text t =>
      simp at hf
      subst hf
      exact hop
    | rule r => simp at hf
  · intro h
    exact ⟨.text s, h, rfl⟩

theorem opsSectionKeys_modifyIdx (g : Glyph) :
    ∀ (ops : List MathOp) (i : ℕ),
    opsSectionKeys (modifyIdx ops i (appendGlyphOp g)) = opsSectionKeys ops := by
  intro ops
  induction ops with
  | nil => intro i; rfl
  | cons op rest ih =>
    intro i
    cases i with
    | zero =>
      cases op with
      | text s => simp [modifyIdx, opsSectionKeys, opsTextSections, appendGlyphOp]
      | rule r => simp [modifyIdx, opsSectionKeys, opsTextSections, appendGlyphOp]
    | succ i =>
      cases op with
      | text s =>
        simp only [modifyIdx, opsSectionKeys, opsTextSections, List.filterMap_cons]
        have := ih i
        simp only [opsSectionKeys, opsTextSections] at this
        simp [this]
      | rule r =>
        simp only [modifyIdx, opsSectionKeys, opsTextSections, List.filterMap_cons]
        have := ih i
        simp only [opsSectionKeys, opsTextSections] at this
        simp [this]

theorem sectionKeys_pushGlyph (b : MathBlock) (g : Glyph) :
    sectionKeys (b.pushGlyph g) = sectionKeys b ∨
    sectionKeys (b.pushGlyph g) = sectionKeys b ++ [(g.y, g.fontSize, g.color)] := by
  unfold MathBlock.pushGlyph
  cases hf : findMatchIdx g b.mathOps with
  | some i =>
    left
    simp only [sectionKeys]
    exact opsSectionKeys_modifyIdx g b.mathOps i
  | none =>
    right
    simp [sectionKeys, opsSectionKeys, opsTextSections_append, opsTextSections, freshSection]

theorem sectionKeys_processGlyphs (gs : List Glyph) :
    ∀ b : MathBlock, ∃ ks, sectionKeys (processGlyphs b gs) = sectionKeys b ++ ks := by
  induction gs with
  | nil => intro b; exact ⟨[], by simp [processGlyphs]⟩
  | cons g rest ih =>
    intro b
    obtain ⟨ks, hks⟩ := ih (b.pushGlyph g)
    have hproc : processGlyphs b (g :: rest) = processGlyphs (b.pushGlyph g) rest := rfl
    rcases sectionKeys_pushGlyph b g with hstep | hstep
    · exact ⟨ks, by rw [hproc, hks, hstep]⟩
    · refine ⟨(g.y, g.fontSize, g.color) :: ks, ?_⟩
      rw [hproc, hks, hstep]
      simp

/-- C3 (amended): a glyph event is appended to an existing batch exactly when
some stored section satisfies can_append, that is its vertical origin differs
from the event's by strictly less than 0.01 mm, the section's font size
exceeds the event's by less than f64::EPSILON (no absolute value is taken, so
an event with a larger font size still matches), and the colors are equal;
the glyph lands in the first such section in operation order.  When no
section matches, a new batch with the event's key is appended at the end, so
batch keys appear in ops() in first-occurrence order and are never
reordered. -/
theorem c3_glyph_batching (b : MathBlock) (g : Glyph) :
    ((∃ s ∈ b.textSections, s.canAppend g.y g.fontSize g.color = true) →
      sectionKeys (b.pushGlyph g) = sectionKeys b) ∧
    ((∀ s ∈ b.textSections, s.canAppend g.y g.fontSize g.color = false) →
      sectionKeys (b.pushGlyph g) = sectionKeys b ++ [(g.y, g.fontSize, g.color)]) ∧
    (∀ i, findMatchIdx g b.mathOps = some i →
      (b.pushGlyph g).mathOps = modifyIdx b.mathOps i (appendGlyphOp g) ∧
      matchesGlyph g (b.mathOps.getD i mathOpDefault) = true ∧
      ∀ j, j < i → matchesGlyph g (b.mathOps.getD j mathOpDefault) = false) ∧
    (∀ gs, ∃ ks, sectionKeys (processGlyphs b gs) = sectionKeys b ++ ks) := by
  refine ⟨?_, ?_, ?_, fun gs => sectionKeys_processGlyphs gs b⟩
  · rintro ⟨s, hs, hca⟩
    have hne : findMatchIdx g b.mathOps ≠ none := by
      intro hnone
      have := (findMatchIdx_none_iff g b.mathOps).mp hnone (MathOp.text s)
        ((mem_opsTextSections b.mathOps s).mp hs)
      simp [matchesGlyph, hca] at this
    cases hf : findMatchIdx g b.mathOps with
    | none => exact absurd hf hne
    | some i =>
      unfold MathBlock.pushGlyph
      rw [hf]
      exact opsSectionKeys_modifyIdx g b.mathOps i
  · intro hall
    have hnone : findMatchIdx g b.mathOps = none := by
      rw [findMatchIdx_none_iff]
      intro op hop
      cases op with
      | text s => exact hall s ((mem_opsTextSections b.mathOps s).mpr hop)
      | rule r => rfl
    unfold MathBlock.pushGlyph
    rw [hnone]
    simp [sectionKeys, opsSectionKeys, opsTextSections_append, opsTextSections, freshSection]
  · intro i hf
    unfold MathBlock.pushGlyph
    rw [hf]
    exact ⟨rfl, (findMatchIdx_some_spec g b.mathOps i hf).2.1,
      (findMatchIdx_some_spec g b.mathOps i hf).2.2⟩

/-- C3 counterexample: two glyph events whose vertical origins differ by
exactly 0.01 mm with equal font size and color do not land in the same batch
(the code produces two sections where the claim predicts one), while two
events with unequal font sizes (10 and 20) and identical origin and color do
land in the same batch (the code produces one section where the claim
predicts two). -/
theorem c3_counterexample :
    (((processGlyphs (MathBlock.new ⟨0, 0⟩)
        [⟨0, 0, 0, 10, ⟨0, 0, 0⟩, 0⟩, ⟨0, 1 / 100, 1, 10, ⟨0, 0, 0⟩, 0⟩]).textSections).length
        = 2 ∧
      |(0 : ℚ) - 1 / 100| ≤ 1 / 100) ∧
    (((processGlyphs (MathBlock.new ⟨0, 0⟩)
        [⟨0, 0, 0, 10, ⟨0, 0, 0⟩, 0⟩, ⟨0, 0, 1, 20, ⟨0, 0, 0⟩, 0⟩]).textSections).length
        = 1 ∧
      (10 : ℚ) ≠ 20) := by
  refine ⟨⟨?_, ?_⟩, ⟨?_, by norm_num⟩⟩
  · norm_num [processGlyphs, MathBlock.pushGlyph, MathBlock.new, findMatchIdx, matchesGlyph,
      TextSection.canAppend, freshSection, positioningAccuracy, f64Epsilon, modifyIdx,
      appendGlyphOp, MathBlock.textSections, opsTextSections_nil, opsTextSections_cons_text,
      abs_of_pos]
  · rw [show ((0 : ℚ) - 1 / 100) = -(1 / 100) by norm_num, abs_neg]
    rw [abs_of_nonneg (by norm_num : ((0 : ℚ)) ≤ 1 / 100)]
  · norm_num [processGlyphs, MathBlock.pushGlyph, MathBlock.new, findMatchIdx, matchesGlyph,
      TextSection.canAppend, freshSection, positioningAccuracy, f64Epsilon, modifyIdx,
      appendGlyphOp, MathBlock.textSections, opsTextSections_nil, opsTextSections_cons_text]

/-- Evaluation of the C3 theorem: a glyph matching an existing batch leaves
the batch keys unchanged. -/
theorem c3_witness :
    sectionKeys ((processGlyphs (MathBlock.new ⟨0, 0⟩)
        [⟨0, 0, 0, 10, ⟨0, 0, 0⟩, 0⟩]).pushGlyph ⟨0, 0, 1, 10, ⟨0, 0, 0⟩, 0⟩)
      = sectionKeys (processGlyphs (MathBlock.new ⟨0, 0⟩) [⟨0, 0, 0, 10, ⟨0, 0, 0⟩, 0⟩]) := by
  have hb : (processGlyphs (MathBlock.new ⟨0, 0⟩)
      [⟨0, 0, 0, 10, ⟨0, 0, 0⟩, 0⟩]).textSections
      = [freshSection ⟨0, 0, 0, 10, ⟨0, 0, 0⟩, 0⟩] := rfl
  have hca : (freshSection ⟨0, 0, 0, 10, ⟨0, 0, 0⟩, 0⟩).canAppend 0 10 ⟨0, 0, 0⟩ = true := by
    norm_num [freshSection, TextSection.canAppend, positioningAccuracy, f64Epsilon]
  exact (c3_glyph_batching (processGlyphs (MathBlock.new ⟨0, 0⟩)
      [⟨0, 0, 0, 10, ⟨0, 0, 0⟩, 0⟩]) ⟨0, 0, 1, 10, ⟨0, 0, 0⟩, 0⟩).1
    ⟨freshSection ⟨0, 0, 0, 10, ⟨0, 0, 0⟩, 0⟩, by rw [hb]; exact List.mem_singleton_self _, hca⟩

theorem emOffsetsAux_append (g : Glyph) :
    ∀ (gs : List Glyph) (l : ℚ),
    emOffsetsAux l (gs ++ [g])
      = emOffsetsAux l gs ++ [mmToEm g.x g.fontSize - lastXAux l gs] := by
  intro gs
  induction gs with
  | nil => intro l; simp [emOffsetsAux, lastXAux]
  | cons a rest ih => intro l; simp [emOffsetsAux, lastXAux, ih]

theorem lastXAux_append (g : Glyph) :
    ∀ (gs : List Glyph) (l : ℚ),
    lastXAux l (gs ++ [g]) = mmToEm g.x g.fontSize + g.advance := by
  intro gs
  induction gs with
  | nil => intro l; simp [lastXAux]
  | cons a rest ih => intro l; simp [lastXAux, ih]

theorem mem_modifyIdx (f : MathOp → MathOp) :
    ∀ (ops : List MathOp) (i : ℕ) (op : MathOp), op ∈ modifyIdx ops i f →
      op ∈ ops ∨ ∃ op0, op0 ∈ ops ∧ op = f op0 := by
  intro ops
  induction ops with
  | nil => intro i op h; simp [modifyIdx] at h
  | cons a rest ih =>
    intro i op h
    cases i with
    | zero =>
      rcases List.mem_cons.mp h with h1 | h1
      · exact Or.inr ⟨a, List.mem_cons_self a rest, h1⟩
      · exact Or.inl (List.mem_cons_of_mem a h1)
    | succ i =>
      rcases List.mem_cons.mp h with h1 | h1
      · exact Or.inl (h1 ▸ List.mem_cons_self a rest)
      · rcases ih i op h1 with h2 | ⟨op0, hmem, heq⟩
        · exact Or.inl (List.mem_cons_of_mem a h2)
        · exact Or.inr ⟨op0, List.mem_cons_of_mem a hmem, heq⟩

theorem sectionRep_weaken (es : List Glyph) (g : Glyph) (s : TextSection)
    (h : sectionRep es s) : sectionRep (es ++ [g]) s := by
  obtain ⟨gs, h1, h2, h3, h4, h5⟩ := h
  exact ⟨gs, h1, h2.trans (List.sublist_append_left es [g]), h3, h4, h5⟩

theorem sectionRep_push (es : List Glyph) (b : MathBlock) (g : Glyph)
    (hb : ∀ s ∈ b.textSections, sectionRep es s) :
    ∀ s ∈ (b.pushGlyph g).textSections, sectionRep (es ++ [g]) s := by
  intro s hs
  unfold MathBlock.pushGlyph at hs
  cases hf : findMatchIdx g b.mathOps with
  | none =>
    rw [hf] at hs
    simp only [MathBlock.textSections] at hs
    rw [opsTextSections_append] at hs
    rcases List.mem_append.mp hs with h1 | h1
    · exact sectionRep_weaken es g s (hb s h1)
    · have hs2 : s = freshSection g := by
        simpa [opsTextSections] using h1
      subst hs2
      refine ⟨[g], by simp, List.sublist_append_right es [g], ?_, ?_, ?_⟩
      · simp [freshSection]
      · simp [freshSection, emOffsetsAux]
      · simp [freshSection, lastXAux]
  | some i =>
    rw [hf] at hs
    simp only [MathBlock.textSections] at hs
    have hmem := (mem_opsTextSections _ s).mp hs
    rcases mem_modifyIdx (appendGlyphOp g) b.mathOps i (.text s) hmem with h1 | ⟨op0, hmem0, heq⟩
    · exact sectionRep_weaken es g s (hb s ((mem_opsTextSections _ s).mpr h1))
    · cases op0 with
      | rule r => simp [appendGlyphOp] at heq
      | text s0 =>
        have hs0 : sectionRep es s0 := hb s0 ((mem_opsTextSections _ s0).mpr hmem0)
        obtain ⟨gs, h1, h2, h3, h4, h5⟩ := hs0
        have heq2 : s = { s0 with
            xOffsets := s0.xOffsets ++ [mmToEm g.x g.fontSize - s0.lastX],
            glyphIds := s0.glyphIds ++ [g.gid],
            lastX := mmToEm g.x g.fontSize + g.advance } := by
          simpa [appendGlyphOp] using heq
        subst heq2
        refine ⟨gs ++ [g], by simp, List.Sublist.append h2 (List.Sublist.refl [g]),
          ?_, ?_, ?_⟩
        · simp [h3]
        · rw [emOffsetsAux_append]
          simp [h4, h5]
        · rw [lastXAux_append]

theorem sectionRep_process :
    ∀ (gs : List Glyph) (b : MathBlock) (es : List Glyph),
    (∀ s ∈ b.textSections, sectionRep es s) →
    ∀ s ∈ (processGlyphs b gs).textSections, sectionRep (es ++ gs) s := by
  intro gs
  induction gs with
  | nil =>
    intro b es hb s hs
    simpa using hb s (by simpa [processGlyphs] using hs)
  | cons g rest ih =>
    intro b es hb s hs
    have hproc : processGlyphs b (g :: rest) = processGlyphs (b.pushGlyph g) rest := rfl
    rw [hproc] at hs
    have := ih (b.pushGlyph g) (es ++ [g]) (sectionRep_push es b g hb) s hs
    simpa [List.append_assoc] using this

/-- C5 (amended): every batch produced by processing a glyph event stream
stores the data of a nonempty subsequence of the events: glyph ids in
emission order, and horizontal offsets delta-encoded in EM units at each
glyph's own event font size (which equals the batch's font size whenever the
event and batch font sizes agree): the first glyph stores its absolute x
position in EMs and every later glyph stores its position minus the previous
glyph's right edge (previous position plus its advance).  The EM conversion
uses the fixed device-to-physical ratio of 25.4 mm per 72 units. -/
theorem c5_em_offsets (sz : Size) (gs : List Glyph) :
    (∀ s ∈ (processGlyphs (MathBlock.new sz) gs).textSections, sectionRep gs s) ∧
    (∀ m f : ℚ, mmToEm m f = m * (72 / 25.4) * (1 / f)) ∧
    pxToMm = 25.4 / 72 := by
  refine ⟨?_, ?_, rfl⟩
  · intro s hs
    have h0 : ∀ s ∈ (MathBlock.new sz).textSections, sectionRep ([] : List Glyph) s := by
      intro s hs
      simp [MathBlock.new, MathBlock.textSections, opsTextSections] at hs
    have := sectionRep_process gs (MathBlock.new sz) [] h0 s hs
    simpa using this
  · intro m f
    unfold mmToEm pxToMm
    simp only [div_eq_mul_inv, mul_inv, inv_inv]
    ring

/-- C5 counterexample: an event with font size 20 appends to a batch whose
font size is 10 (its vertical origin and color match and the signed font-size
check passes); its stored offset 1/20 is computed in EMs at the event's own
font size, not at the batch's font size 10, which would give 1/10. -/
theorem c5_counterexample :
    ((processGlyphs (MathBlock.new ⟨0, 0⟩)
        [⟨0, 0, 0, 10, ⟨0, 0, 0⟩, 0⟩,
          ⟨25.4 / 72, 0, 1, 20, ⟨0, 0, 0⟩, 0⟩]).textSections).map
        (fun s => (s.fontSize, s.xOffsets)) = [(10, [0, 1 / 20])] ∧
    (1 / 20 : ℚ) ≠ mmToEm (25.4 / 72) 10 - (mmToEm 0 10 + 0) := by
  constructor
  · norm_num [processGlyphs, MathBlock.pushGlyph, MathBlock.new, findMatchIdx, matchesGlyph,
      TextSection.canAppend, freshSection, positioningAccuracy, f64Epsilon, modifyIdx,
      appendGlyphOp, MathBlock.textSections, opsTextSections_nil, opsTextSections_cons_text,
      mmToEm, pxToMm]
  · norm_num [mmToEm, pxToMm]

/-- Evaluation of the C5 theorem: the single batch produced by one event
satisfies the delta-encoding invariant. -/
theorem c5_witness :
    sectionRep [⟨25.4 / 72, 0, 3, 10, ⟨0, 0, 0⟩, 2⟩]
      ⟨0, 10, [1 / 10], [3], ⟨0, 0, 0⟩, 21 / 10⟩ := by
  have hsec : (processGlyphs (MathBlock.new ⟨0, 0⟩)
      [⟨25.4 / 72, 0, 3, 10, ⟨0, 0, 0⟩, 2⟩]).textSections
      = [⟨0, 10, [1 / 10], [3], ⟨0, 0, 0⟩, 21 / 10⟩] := by
    norm_num [processGlyphs, MathBlock.pushGlyph, MathBlock.new, findMatchIdx,
      MathBlock.textSections, opsTextSections_nil, opsTextSections_cons_text, freshSection,
      mmToEm, pxToMm]
  exact (c5_em_offsets ⟨0, 0⟩ [⟨25.4 / 72, 0, 3, 10, ⟨0, 0, 0⟩, 2⟩]).1
    ⟨0, 10, [1 / 10], [3], ⟨0, 0, 0⟩, 21 / 10⟩
    (by rw [hsec]; exact List.mem_singleton_self _)

/-- C9: SyntaxHighlighter::highlight returns None exactly when the language
token or the theme name is not found; in that case, and whenever the code
block has no configured theme, CodeBlock::render does not fail but falls back
to rendering the code as one span per line styled with the block's base
style. -/
theorem c9_highlight_fallback (sh : SyntaxHighlighter) (code lang theme : String)
    (baseStyle : Style) (onlyReg : Bool) (cb : CodeBlock) :
    (sh.highlight code lang theme baseStyle onlyReg = none ↔
      (sh.findSyntaxByToken lang = none ∨ sh.getTheme theme = none)) ∧
    (cb.theme = none → codeBlockHighlightedLines sh cb = dummyHighlighting cb cb.baseStyle) ∧
    (∀ th, cb.theme = some th →
      sh.highlight cb.code cb.language th cb.baseStyle cb.onlyRegularFont = none →
      codeBlockHighlightedLines sh cb = dummyHighlighting cb cb.baseStyle) ∧
    dummyHighlighting cb cb.baseStyle
      = (rustLines cb.code).map (fun l => [(l, cb.baseStyle)]) := by
  refine ⟨?_, ?_, ?_, rfl⟩
  · unfold SyntaxHighlighter.highlight
    cases hs : sh.findSyntaxByToken lang with
    | none => simp
    | some syn =>
      cases ht : sh.getTheme theme with
      | none => simp
      | some th => simp
  · intro h
    unfold codeBlockHighlightedLines
    rw [h]
  · intro th hth hnone
    unfold codeBlockHighlightedLines
    simp [hth, hnone]

/-- Evaluation of the C9 theorem: an unknown language token degrades to one
base-styled span per line. -/
theorem c9_witness :
    codeBlockHighlightedLines ⟨fun _ => none, fun _ => some 0, fun _ _ _ _ _ => []⟩
        ⟨"ab", stOne, false, "rust", some "t"⟩
      = dummyHighlighting ⟨"ab", stOne, false, "rust", some "t"⟩ stOne := by
  exact (c9_highlight_fallback ⟨fun _ => none, fun _ => some 0, fun _ _ _ _ _ => []⟩
    "x" "y" "z" stOne false ⟨"ab", stOne, false, "rust", some "t"⟩).2.2.1 "t" rfl rfl

/-- C4 counterexample: on a two-word line whose first word carries leading
whitespace, with trim_spaces clear, the source always excludes the leading
whitespace from the line width (spacing 8), while the claim's formula keeps
it (spacing 7). -/
theorem c4_counterexample :
    extraWordSpacing envOne (.justified false) 1 10 lineSp true = 8 ∧
    extraWordSpacingClaimed envOne (.justified false) 1 10 lineSp true = 7 ∧
    (8 : ℚ) ≠ 7 := by
  have hsp : isWs ' ' = true := by decide
  have hla : isWs 'a' = false := by decide
  refine ⟨?_, ?_, by norm_num⟩
  · norm_num [extraWordSpacing, envOne, sumWidthEnv, lineSp, lineWidth, wordWidth,
      trimStartChars, List.dropWhile_cons, hsp, hla, stOne, cwOne, lhOne, merSnd]
  · norm_num [extraWordSpacingClaimed, envOne, sumWidthEnv, lineSp, lineWidth, wordWidth,
      trimStartChars, List.dropWhile_cons, hsp, hla, stOne, cwOne, lhOne, merSnd]

/-- C4 (amended): for a justified line that is not the wrapper's last line,
the extra inter-word spacing is (area width − adjusted line width) divided by
the word count minus one (clamped to at least 1 for single-word lines) and by
the style's font size, where the adjusted line width always excludes the
first word's leading whitespace and excludes the last word's trailing
whitespace exactly when trim_spaces is set.  The paragraph's final line and
every line under a non-justified alignment receive zero extra spacing. -/
theorem c4_justified_spacing (cw : Style → Char → ℚ) (lh : Style → ℚ)
    (mer : Style → Style → Style) (fs areaW : ℚ) (line : List StyledString)
    (ali : Alignment) :
    extraWordSpacing (sumWidthEnv cw lh mer) ali fs areaW line false = 0 ∧
    ((ali = .left ∨ ali = .center ∨ ali = .right) →
      ∀ nx, extraWordSpacing (sumWidthEnv cw lh mer) ali fs areaW line nx = 0) ∧
    (∀ w1 mid wl trim, line = w1 :: (mid ++ [wl]) →
      extraWordSpacing (sumWidthEnv cw lh mer) (.justified trim) fs areaW line true
        = ((areaW - (((trimStartChars w1.s).map (cw w1.style)).sum
            + (mid.map (wordWidth (sumWidthEnv cw lh mer))).sum
            + (if trim then ((trimEndChars wl.s).map (cw wl.style)).sum
               else wordWidth (sumWidthEnv cw lh mer) wl)))
          / ((mid.length + 1 : ℕ) : ℚ)) / fs) ∧
    (∀ w trim, line = [w] →
      extraWordSpacing (sumWidthEnv cw lh mer) (.justified trim) fs areaW line true
        = ((areaW - (((trimStartChars w.s).map (cw w.style)).sum
            + (if trim then ((trimEndChars w.s).map (cw w.style)).sum
                - wordWidth (sumWidthEnv cw lh mer) w
               else 0)))
          / ((1 : ℕ) : ℚ)) / fs) := by
  refine ⟨?_, ?_, ?_, ?_⟩
  · cases ali <;> rfl
  · rintro (rfl | rfl | rfl) nx <;> cases nx <;> rfl
  · intro w1 mid wl trim hline
    subst hline
    have hlast : (w1 :: (mid ++ [wl])).getLast? = some wl := by
      rw [show w1 :: (mid ++ [wl]) = (w1 :: mid) ++ [wl] from (List.cons_append w1 mid [wl]).symm]
      exact List.getLast?_concat (w1 :: mid)
    have hlen : (w1 :: (mid ++ [wl])).length - 1 = mid.length + 1 := by
      simp
    have hmax : max (mid.length + 1) 1 = mid.length + 1 :=
      Nat.max_eq_left (Nat.succ_le_succ (Nat.zero_le mid.length))
    simp only [extraWordSpacing, List.head?_cons, hlast, hlen, hmax]
    cases trim with
    | false =>
      simp only [Bool.false_eq_true, if_false, lineWidth, wordWidth, sumWidthEnv,
        List.map_cons, List.map_append, List.map_nil, List.sum_cons, List.sum_append,
        List.sum_nil]
      push_cast
      ring
    | true =>
      simp only [if_true, lineWidth, wordWidth, sumWidthEnv,
        List.map_cons, List.map_append, List.map_nil, List.sum_cons, List.sum_append,
        List.sum_nil]
      push_cast
      ring
  · intro w trim hline
    subst hline
    have hlast : ([w] : List StyledString).getLast? = some w := rfl
    have hlen : ([w] : List StyledString).length - 1 = 0 := rfl
    have hmax : max 0 1 = 1 := rfl
    simp only [extraWordSpacing, List.head?_cons, hlast, hlen, hmax]
    cases trim with
    | false =>
      simp only [Bool.false_eq_true, if_false, lineWidth, wordWidth, sumWidthEnv,
        List.map_cons, List.map_nil, List.sum_cons, List.sum_nil]
      push_cast
      ring
    | true =>
      simp only [if_true, lineWidth, wordWidth, sumWidthEnv,
        List.map_cons, List.map_nil, List.sum_cons, List.sum_nil]
      push_cast
      ring

/-- Evaluation of the C4 theorem on a concrete two-word line with trim_spaces
set. -/
theorem c4_witness :
    extraWordSpacing envOne (.justified true) 1 10 lineSp true
      = ((10 - (((trimStartChars [' ', 'a']).map (cwOne stOne)).sum
          + (([] : List StyledString).map (wordWidth envOne)).sum
          + (if true then ((trimEndChars ['b']).map (cwOne stOne)).sum
             else wordWidth envOne ⟨['b'], stOne⟩)))
        / ((([] : List StyledString).length + 1 : ℕ) : ℚ)) / 1 := by
  exact (c4_justified_spacing cwOne lhOne merSnd 1 10 lineSp (.justified true)).2.2.1
    ⟨[' ', 'a'], stOne⟩ [] ⟨['b'], stOne⟩ true rfl

theorem splitWords_flatten (cs : List Char) : (splitWords cs).flatten = cs := by
  induction cs with
  | nil => rfl
  | cons c cs ih =>
    simp only [splitWords]
    cases h : splitWords cs with
    | nil =>
      rw [h] at ih
      simp only [List.flatten_nil] at ih
      simp [← ih]
    | cons w ws =>
      rw [h] at ih
      by_cases hb : (isWs c && startsNonWs w) = true
      · simp [hb, ih]
      · simp only [List.flatten_cons] at ih
        simp [hb, ih]

theorem wordsChars_nil : wordsChars [] = [] := rfl

theorem wordsChars_cons (w : StyledString) (ws : List StyledString) :
    wordsChars (w :: ws) = w.s ++ wordsChars ws := by
  simp [wordsChars]

theorem wordsChars_append (a b : List StyledString) :
    wordsChars (a ++ b) = wordsChars a ++ wordsChars b := by
  simp [wordsChars]

theorem tokenizeWords_chars (text : List StyledString) :
    wordsChars (tokenizeWords text) = wordsChars text := by
  induction text with
  | nil => rfl
  | cons t rest ih =>
    have ih2 : wordsChars (rest.flatMap
        (fun ss => (splitWords ss.s).map (fun w => (⟨w, ss.style⟩ : StyledString))))
        = wordsChars rest := ih
    have h1 : wordsChars ((splitWords t.s).map (fun w => (⟨w, t.style⟩ : StyledString)))
        = t.s := by
      unfold wordsChars
      rw [List.map_map]
      have hid : ((fun w : StyledString => w.s) ∘ fun w => (⟨w, t.style⟩ : StyledString))
          = id := rfl
      rw [hid, List.map_id]
      exact splitWords_flatten t.s
    show wordsChars ((t :: rest).flatMap
      (fun ss => (splitWords ss.s).map (fun w => ⟨w, ss.style⟩))) = _
    rw [List.flatMap_cons, wordsChars_append, wordsChars_cons, h1, ih2]

theorem wrapGo_flatten (env : TextEnv) (maxW : ℚ) :
    ∀ (ws cur : List StyledString) (curW : ℚ),
    (wrapGo env maxW cur curW ws).flatten = cur.reverse ++ ws := by
  intro ws
  induction ws with
  | nil =>
    intro cur curW
    by_cases hc : cur.isEmpty
    · have hcur : cur = [] := List.isEmpty_iff.mp hc
      simp [wrapGo, hc, hcur]
    · simp [wrapGo, hc]
  | cons w rest ih =>
    intro cur curW
    by_cases hc : cur.isEmpty
    · have hcur : cur = [] := List.isEmpty_iff.mp hc
      simp [wrapGo, hc, hcur, ih]
    · by_cases hfit : curW + wordWidth env w ≤ maxW
      · simp [wrapGo, hc, hfit, ih]
      · simp [wrapGo, hc, hfit, ih]

theorem wrapLines_flatten (env : TextEnv) (maxW : ℚ) (ws : List StyledString) :
    (wrapLines env maxW ws).flatten = ws := by
  simpa using wrapGo_flatten env maxW ws [] 0

theorem fitGo_take (env : TextEnv) :
    ∀ (ls : List (List StyledString)) (h : ℚ), ∃ k, (fitGo env ls h).1 = ls.take k := by
  intro ls
  induction ls with
  | nil => intro h; exact ⟨0, rfl⟩
  | cons l rest ih =>
    intro h
    by_cases hf : lineHeight env l ≤ h
    · obtain ⟨k, hk⟩ := ih (h - lineHeight env l)
      exact ⟨k + 1, by simp [fitGo, hf, hk]⟩
    · exact ⟨0, by simp [fitGo, hf]⟩

theorem fitGo_complete (env : TextEnv) :
    ∀ (ls : List (List StyledString)) (h : ℚ),
    (fitGo env ls h).2 = false → (fitGo env ls h).1 = ls := by
  intro ls
  induction ls with
  | nil => intro h _; rfl
  | cons l rest ih =>
    intro h hff
    by_cases hf : lineHeight env l ≤ h
    · have := ih (h - lineHeight env l) (by simpa [fitGo, hf] using hff)
      simp [fitGo, hf, this]
    · simp [fitGo, hf] at hff

theorem pruneWords_chars :
    ∀ (n : ℕ) (ws : List StyledString),
    wordsChars (pruneWords n ws) = (wordsChars ws).drop n := by
  intro n ws
  induction ws generalizing n with
  | nil => simp [pruneWords, wordsChars]
  | cons w rest ih =>
    by_cases h0 : n = 0
    · simp [pruneWords, h0]
    · by_cases hle : w.s.length ≤ n
      · simp only [pruneWords, if_neg h0, if_pos hle]
        rw [ih, wordsChars_cons, List.drop_append_eq_append_drop,
          List.drop_eq_nil_of_le hle, List.nil_append]
      · have hlt : ¬ w.s.length ≤ n := hle
        simp only [pruneWords, if_neg h0, if_neg hlt]
        rw [wordsChars_cons, wordsChars_cons, List.drop_append_eq_append_drop]
        have hz : n - w.s.length = 0 := Nat.sub_eq_zero_of_le (le_of_not_le hlt)
        rw [hz, List.drop_zero]

theorem renderBody_chars (env : TextEnv) (p : Paragraph) (areaW areaH : ℚ) :
    (paragraphRenderBody env p areaW areaH).2.2
      ++ wordsChars (paragraphRenderBody env p areaW areaH).2.1.words
      = wordsChars p.words ∧
    (paragraphRenderBody env p areaW areaH).2.1.text = p.text ∧
    ((paragraphRenderBody env p areaW areaH).1.hasMore = false →
      wordsChars (paragraphRenderBody env p areaW areaH).2.1.words = []) := by
  have h22 : (paragraphRenderBody env p areaW areaH).2.2
      = wordsChars ((fitGo env (wrapLines env areaW p.words) areaH).1.flatten) := rfl
  have h21 : (paragraphRenderBody env p areaW areaH).2.1.words
      = pruneWords
          (wordsChars ((fitGo env (wrapLines env areaW p.words) areaH).1.flatten)).length
          p.words := rfl
  have h1m : (paragraphRenderBody env p areaW areaH).1.hasMore
      = (fitGo env (wrapLines env areaW p.words) areaH).2 := rfl
  have hflat : (wrapLines env areaW p.words).flatten = p.words :=
    wrapLines_flatten env areaW p.words
  obtain ⟨k, hk⟩ := fitGo_take env (wrapLines env areaW p.words) areaH
  have hsplit : wordsChars ((fitGo env (wrapLines env areaW p.words) areaH).1.flatten)
      ++ wordsChars ((wrapLines env areaW p.words).drop k).flatten = wordsChars p.words := by
    rw [hk, ← wordsChars_append, ← List.flatten_append, List.take_append_drop, hflat]
  refine ⟨?_, rfl, ?_⟩
  · rw [h22, h21, pruneWords_chars, ← hsplit, List.drop_left]
  · intro hmore
    rw [h1m] at hmore
    have hfull : (fitGo env (wrapLines env areaW p.words) areaH).1
        = wrapLines env areaW p.words := fitGo_complete env _ areaH hmore
    rw [h21, pruneWords_chars, hfull, hflat]
    exact List.drop_length (wordsChars p.words)

theorem applyStyle_words (env : TextEnv) (style : Style) (p : Paragraph) :
    (applyStyle env style p).words = p.words := by
  unfold applyStyle
  split <;> rfl

theorem applyStyle_text_chars (env : TextEnv) (style : Style) (p : Paragraph) :
    wordsChars (applyStyle env style p).text = wordsChars p.text := by
  unfold applyStyle
  split
  · rfl
  · simp [wordsChars, List.map_map]
    rfl

theorem applyStyle_text_empty (env : TextEnv) (style : Style) (p : Paragraph)
    (h : p.text = []) : (applyStyle env style p).text = [] := by
  unfold applyStyle
  split
  · exact h
  · simp [h]

theorem paragraphRender_chars (env : TextEnv) (style : Style) (p : Paragraph)
    (areaW areaH : ℚ) (hp : p.words = [] ∨ p.text = []) :
    (paragraphRender env style p areaW areaH).2.2
      ++ (wordsChars (paragraphRender env style p areaW areaH).2.1.text
          ++ wordsChars (paragraphRender env style p areaW areaH).2.1.words)
      = wordsChars p.text ++ wordsChars p.words ∧
    ((paragraphRender env style p areaW areaH).2.1.words = []
      ∨ (paragraphRender env style p areaW areaH).2.1.text = []) ∧
    ((paragraphRender env style p areaW areaH).1.hasMore = false →
      wordsChars (paragraphRender env style p areaW areaH).2.1.text
        ++ wordsChars (paragraphRender env style p areaW areaH).2.1.words = []) := by
  by_cases hw : (applyStyle env style p).words.isEmpty
  · by_cases ht : (applyStyle env style p).text.isEmpty
    · have hout : paragraphRender env style p areaW areaH
          = (rrDefault, applyStyle env style p, []) := by
        simp [paragraphRender, hw, ht]
      have hwe : (applyStyle env style p).words = [] := List.isEmpty_iff.mp hw
      have hte : (applyStyle env style p).text = [] := List.isEmpty_iff.mp ht
      have hw2 : p.words = [] := by rw [← applyStyle_words env style p]; exact hwe
      have ht2 : wordsChars p.text = [] := by
        rw [← applyStyle_text_chars env style p, hte]
        rfl
      rw [hout]
      refine ⟨?_, Or.inl hwe, fun _ => ?_⟩
      · rw [hte, hwe, hw2, ht2]
        rfl
      · rw [hte, hwe]
        rfl
    · have hout : paragraphRender env style p areaW areaH
          = paragraphRenderBody env
              ⟨[], tokenizeWords (applyStyle env style p).text,
                (applyStyle env style p).styleApplied,
                (applyStyle env style p).alignment⟩ areaW areaH := by
        simp [paragraphRender, hw, ht]
      obtain ⟨hb1, hb2, hb3⟩ := renderBody_chars env
        ⟨[], tokenizeWords (applyStyle env style p).text,
          (applyStyle env style p).styleApplied,
          (applyStyle env style p).alignment⟩ areaW areaH
      have hw2 : p.words = [] := by
        rw [← applyStyle_words env style p]
        exact List.isEmpty_iff.mp hw
      rw [hout]
      refine ⟨?_, Or.inr (by rw [hb2]), ?_⟩
      · rw [hb2]
        simp only [wordsChars_nil, List.nil_append]
        rw [hb1]
        show wordsChars (tokenizeWords (applyStyle env style p).text) = _
        rw [tokenizeWords_chars, applyStyle_text_chars]
        rw [hw2]
        simp [wordsChars]
      · intro hm
        rw [hb2]
        simp only [wordsChars_nil, List.nil_append]
        exact hb3 hm
  · have hout : paragraphRender env style p areaW areaH
        = paragraphRenderBody env (applyStyle env style p) areaW areaH := by
      simp [paragraphRender, hw]
    have htE : p.text = [] := by
      rcases hp with h | h
      · exact absurd (by rw [applyStyle_words env style p, h]; rfl :
          (applyStyle env style p).words.isEmpty = true) hw
      · exact h
    have hp1t : (applyStyle env style p).text = [] := applyStyle_text_empty env style p htE
    obtain ⟨hb1, hb2, hb3⟩ := renderBody_chars env (applyStyle env style p) areaW areaH
    rw [hout]
    refine ⟨?_, Or.inr (by rw [hb2, hp1t]), ?_⟩
    · rw [hb2, hp1t]
      simp only [wordsChars_nil, List.nil_append]
      rw [hb1, applyStyle_words]
      rw [htE]
      simp [wordsChars]
    · intro hm
      rw [hb2, hp1t]
      simp only [wordsChars_nil, List.nil_append]
      exact hb3 hm

theorem paragraphRenderSeq_chars (env : TextEnv) (style : Style) :
    ∀ (areas : List (ℚ × ℚ)) (p : Paragraph), (p.words = [] ∨ p.text = []) →
    ((paragraphRenderSeq env style p areas).1
      ++ (wordsChars (paragraphRenderSeq env style p areas).2.2.text
          ++ wordsChars (paragraphRenderSeq env style p areas).2.2.words)
      = wordsChars p.text ++ wordsChars p.words) ∧
    ((paragraphRenderSeq env style p areas).2.1 = false →
      wordsChars (paragraphRenderSeq env style p areas).2.2.text
        ++ wordsChars (paragraphRenderSeq env style p areas).2.2.words = []) := by
  intro areas
  induction areas with
  | nil =>
    intro p hp
    constructor
    · simp [paragraphRenderSeq]
    · intro h
      simp [paragraphRenderSeq] at h
  | cons a rest ih =>
    intro p hp
    cases rest with
    | nil =>
      obtain ⟨h1, h2, h3⟩ := paragraphRender_chars env style p a.1 a.2 hp
      constructor
      · simpa [paragraphRenderSeq] using h1
      · intro hm
        simp only [paragraphRenderSeq] at hm ⊢
        exact h3 hm
    | cons b rest2 =>
      obtain ⟨h1, h2, h3⟩ := paragraphRender_chars env style p a.1 a.2 hp
      obtain ⟨g1, g2⟩ := ih (paragraphRender env style p a.1 a.2).2.1 h2
      constructor
      · simp only [paragraphRenderSeq]
        rw [List.append_assoc, g1, h1]
      · intro hm
        simp only [paragraphRenderSeq] at hm ⊢
        exact g2 hm

/-- C1: rendering a Paragraph into any sequence of areas, under any alignment
and any font metrics, emits each input character exactly once and in order:
when the final call reports has_more = false, the concatenation of the
characters emitted across all calls equals the concatenation of the input
strings.  Moreover the resume bookkeeping prunes exactly the already-rendered
characters from the front of the word queue, splitting a word in place when
only part of it was emitted. -/
theorem c1_paragraph_conservation (env : TextEnv) (style : Style) (ali : Alignment)
    (texts : List StyledString) (areas : List (ℚ × ℚ))
    (hdone : (paragraphRenderSeq env style ⟨texts, [], false, ali⟩ areas).2.1 = false) :
    (paragraphRenderSeq env style ⟨texts, [], false, ali⟩ areas).1 = wordsChars texts ∧
    (∀ (n : ℕ) (ws : List StyledString),
      wordsChars (pruneWords n ws) = (wordsChars ws).drop n) := by
  obtain ⟨h1, h2⟩ := paragraphRenderSeq_chars env style areas ⟨texts, [], false, ali⟩
    (Or.inl rfl)
  refine ⟨?_, pruneWords_chars⟩
  rw [h2 hdone, List.append_nil] at h1
  simpa [wordsChars] using h1

/-- Evaluation of the C1 theorem: the paragraph "ab cd" rendered into a
2mm-wide area (one line high) and then a 3mm-wide area emits exactly the
original characters across the two calls. -/
theorem c1_witness :
    (paragraphRenderSeq envOne stOne ⟨textsOne, [], false, .justified true⟩
        [(2, 1), (3, 1)]).1 = wordsChars textsOne := by
  refine (c1_paragraph_conservation envOne stOne (.justified true) textsOne
    [(2, 1), (3, 1)] ?_).1
  have w1 : isWs ' ' = true := by decide
  have w2 : isWs 'a' = false := by decide
  have w3 : isWs 'b' = false := by decide
  have w4 : isWs 'c' = false := by decide
  have w5 : isWs 'd' = false := by decide
  norm_num [paragraphRenderSeq, paragraphRender, applyStyle, paragraphRenderBody,
    wrapLines, wrapGo, fitGo, lineHeight, lineWidth, linesSize, wordWidth, wordsChars,
    pruneWords, tokenizeWords, splitWords, startsNonWs, w1, w2, w3, w4, w5,
    envOne, sumWidthEnv, cwOne, lhOne, merSnd, stOne, textsOne, max_def,
    Size.stackVertical]

end GenPdf
